import Mathlib

/-!
Verification of the Simple-Pendulum-Simulator core against its specification.

The development shallowly embeds the program's data model and operations:
`Function` (src/graph/function.py) is a list of rational points with an
optional cached integral, the three integration schemes are the functions
`integrate_euler`, `integrate_trapezoidal` and `integrate_rk4`, and the
physics layer (Body / AnimatedBody / Pendulum / forces / BodyReplay) is
embedded as explicit state records with fallible operations returning
`Except Err`.  Machine floats are modelled by exact rationals; Python's
`math` module is a parameter record `MathOps` of rational-valued functions.
-/

namespace PendSim

/-- Error taxonomy of the simulator, mirroring the exception classes the
source raises: `emptyFunction` is the ValueError raised by
`Function.__call__` on an empty point list, `indexOutOfRange` is Python's
IndexError from raw list indexing (`seek`, `pop`, `points[-1]`),
`duplicatePoint` is the ValueError raised by `insert` with `check=True`,
`missingDependency` is the KeyError from looking up an absent force in
`body.forces`, and `unimplemented` is the NotImplementedError of the
abstract `Force` base class. -/
inductive Err where
  | emptyFunction
  | indexOutOfRange
  | duplicatePoint
  | missingDependency
  | unimplemented
deriving DecidableEq, Repr

/-- A stored point of a piecewise function: an (x, y) coordinate. -/
abbrev Pt := ℚ × ℚ

/-- Python list indexing: a negative index counts from the end of the list,
and an index out of range raises IndexError. -/
def pyGet {α : Type} (l : List α) (i : ℤ) : Except Err α :=
  let j : ℤ := if i < 0 then i + l.length else i
  if h : 0 ≤ j ∧ j < l.length then
    .ok (l.get ⟨j.toNat, by omega⟩)
  else
    .error .indexOutOfRange

instance {ε α : Type} [DecidableEq ε] [DecidableEq α] : DecidableEq (Except ε α) := fun x y =>
  match x, y with
  | .ok a, .ok b =>
    if h : a = b then isTrue (by rw [h]) else isFalse (by intro hc; cases hc; exact h rfl)
  | .error a, .error b =>
    if h : a = b then isTrue (by rw [h]) else isFalse (by intro hc; cases hc; exact h rfl)
  | .ok _, .error _ => isFalse (by intro hc; cases hc)
  | .error _, .ok _ => isFalse (by intro hc; cases hc)

/-- The recursion of `Function.search_best_index`, made structural on a
fuel argument so that it evaluates by kernel reduction.  Each recursive
call shrinks the interval `[start, stop)` by at least one, so any fuel of
at least `stop - start` produces the behaviour of the source's unbounded
recursion; the zero-fuel branch coincides with the `start == stop` base
case of the source. -/
def searchLoop (pts : List Pt) (x : ℚ) : ℕ → ℕ → ℕ → ℕ
  | 0, start, _ => start
  | fuel + 1, start, stop =>
    if stop ≤ start then start
    else if x > (pts.getD (start + (stop - start) / 2) (0, 0)).1 then
      searchLoop pts x fuel (start + (stop - start) / 2 + 1) stop
    else if x < (pts.getD (start + (stop - start) / 2) (0, 0)).1 then
      searchLoop pts x fuel start (start + (stop - start) / 2)
    else start + (stop - start) / 2

/-- Embeds `Function.search_best_index`: binary search over `points[start:stop]`
for the index at which `x` would be stored.  The source reads
`points[offset]` with raw indexing; every call site supplies
`start ≤ stop ≤ points.length`, on which the default of `getD` is never
used. -/
def search_best_index (pts : List Pt) (x : ℚ) (start stop : ℕ) : ℕ :=
  searchLoop pts x (stop - start) start stop

/-- Embeds `Function.__call__` over the stored point list: error on an empty list,
the single stored y for a one-point list, otherwise pick the bracketing
(or boundary) segment and linearly interpolate or extrapolate.  The two
segment endpoints are fetched with Python indexing (`pyGet`), so
`points[index - 1]` wraps to the last point when `index = 0`. -/
def callF (pts : List Pt) (x : ℚ) : Except Err ℚ :=
  if pts = [] then .error .emptyFunction
  else if pts.length = 1 then .ok (pts.getD 0 (0, 0)).2
  else
    let index : ℕ :=
      if x > (pts.getLast?.getD (0, 0)).1 then pts.length - 1
      else if x < (pts.head?.getD (0, 0)).1 then 1
      else search_best_index pts x 0 pts.length
    match pyGet pts ((index : ℤ) - 1), pyGet pts (index : ℤ) with
    | .ok a, .ok b => .ok ((b.2 - a.2) / (b.1 - a.1) * (x - a.1) + a.2)
    | .error e, _ => .error e
    | _, .error e => .error e

/-- The point-list effect of `Function.insert`: place the new point at the
index found by `search_best_index` over the whole list. -/
def insertPoint (pts : List Pt) (x y : ℚ) : List Pt :=
  pts.insertIdx (search_best_index pts x 0 pts.length) (x, y)

/-- Embeds `Function.seek`: raw Python indexing into the stored points. -/
def seekF (pts : List Pt) (i : ℤ) : Except Err Pt :=
  pyGet pts i

/-- The point-list effect of `Function.append` on a function with no cached
integral: read `points[-1]` (IndexError when empty) and insert
`(lastX + dx, lastY + dy)`. -/
def appendF (pts : List Pt) (dx dy : ℚ) : Except Err (List Pt) :=
  match pyGet pts (-1) with
  | .error e => .error e
  | .ok last => .ok (insertPoint pts (last.1 + dx) (last.2 + dy))

/-- The enumeration `IntegrationMethod` of src/graph/integration_method.py. -/
inductive IntegrationMethod where
  | euler
  | trapezoidal
  | rk4
deriving DecidableEq, Repr

/-- The accumulation loop of `_integrate_trapezoidal`: starting from the
right edge `x` of the derivative, add `width/2 * (d(x - width) + d(x))`
and step `x` backwards, once per split. -/
def trapezoidalArea (dpts : List Pt) (width : ℚ) : ℕ → ℚ → ℚ → Except Err ℚ
  | 0, _, area => .ok area
  | n + 1, x, area =>
    match callF dpts (x - width), callF dpts x with
    | .ok v1, .ok v2 => trapezoidalArea dpts width n (x - width) (area + width / 2 * (v1 + v2))
    | .error e, _ => .error e
    | _, .error e => .error e

/-- Embeds `_integrate_trapezoidal`: append one integral sample to `fpts`, the
area being accumulated backwards from the derivative's right-most stored
x.  Every call site of the source uses the default `splits = 1`. -/
def integrate_trapezoidal (fpts dpts : List Pt) (dx : ℚ) (splits : ℕ) : Except Err (List Pt) :=
  let width := dx / (splits : ℚ)
  match pyGet dpts (-1) with
  | .error e => .error e
  | .ok p =>
    match trapezoidalArea dpts width splits p.1 0 with
    | .error e => .error e
    | .ok area => appendF fpts dx area

/-- Embeds `_integrate_euler`: append `dx * d(f_lastX)` to the integral, the
derivative being evaluated at the integral's own right-most stored x. -/
def integrate_euler (fpts dpts : List Pt) (dx : ℚ) : Except Err (List Pt) :=
  match pyGet fpts (-1) with
  | .error e => .error e
  | .ok p =>
    match callF dpts p.1 with
    | .error e => .error e
    | .ok v => appendF fpts dx (dx * v)

/-- Embeds `_integrate_rk4`: with `x` the derivative's right-most stored x,
`k1 = d(x)`, `k23 = 2 * d(x + dx/2)`, `k4 = d(x + dx)`, append
`dx/6 * (k1 + 2 * k23 + k4)`. -/
def integrate_rk4 (fpts dpts : List Pt) (dx : ℚ) : Except Err (List Pt) :=
  match pyGet dpts (-1) with
  | .error e => .error e
  | .ok p =>
    match callF dpts p.1, callF dpts (p.1 + dx / 2), callF dpts (p.1 + dx) with
    | .ok k1, .ok mid, .ok k4 => appendF fpts dx (dx / 6 * (k1 + 2 * (2 * mid) + k4))
    | .error e, _, _ => .error e
    | _, .error e, _ => .error e
    | _, _, .error e => .error e

/-- One integration step with the chosen scheme, as dispatched by the
match statements in `Function.integral` and `Function.__update_integral`. -/
def integrateStep (m : IntegrationMethod) (fpts dpts : List Pt) (dx : ℚ) : Except Err (List Pt) :=
  match m with
  | .trapezoidal => integrate_trapezoidal fpts dpts dx 1
  | .euler => integrate_euler fpts dpts dx
  | .rk4 => integrate_rk4 fpts dpts dx

/-- The successive x-differences `point[0] - points[i-1][0]` fed to the
integration scheme by the loop of `Function.integral`. -/
def xSteps : List Pt → List ℚ
  | a :: b :: rest => (b.1 - a.1) :: xSteps (b :: rest)
  | _ => []

/-- The loop of `Function.integral`: fold the integration scheme over the
list of x-differences, threading the growing integral point list. -/
def integralSteps (m : IntegrationMethod) (dpts : List Pt) : List Pt → List ℚ → Except Err (List Pt)
  | f, [] => .ok f
  | f, dx :: rest =>
    match integrateStep m f dpts dx with
    | .error e => .error e
    | .ok f2 => integralSteps m dpts f2 rest

/-- The integral point list built by `Function.integral(method, x_i, y_i)`:
seed the fresh integral with `(x_i, y_i)` and run one integration step per
consecutive pair of stored derivative points. -/
def integralBuild (m : IntegrationMethod) (dpts : List Pt) (xi yi : ℚ) : Except Err (List Pt) :=
  integralSteps m dpts (insertPoint [] xi yi) (xSteps dpts)

/-- Embeds `Function` of src/graph/function.py: the stored points together with
the optionally cached integral (its integration method and its stored
points).  The cached integral is itself a `Function` in the source; this
embedding models the integrals produced by `Function.integral`, whose own
cache is empty. -/
structure Function where
  points : List Pt
  cache : Option (IntegrationMethod × List Pt)
deriving DecidableEq, Repr

/-- Embeds `Function.__update_integral`: append one sample to the cached integral
with step `points[-1][0] - points[-2][0]` (or 0 when only one point is
stored), using the cached method. -/
def updateIntegral (m : IntegrationMethod) (ipts pts : List Pt) : Except Err (List Pt) :=
  integrateStep m ipts pts
    (if 1 < pts.length then
      (pts.getD (pts.length - 1) (0, 0)).1 - (pts.getD (pts.length - 2) (0, 0)).1
    else 0)

/-- Embeds `Function.insert`: optional duplicate check, placement by binary
search, then maintenance of the cached integral — a trailing insert
appends one integral sample (`__update_integral`), any other insert
rebuilds the whole integral from the first point of the previous integral
with the same method. -/
def Function.insert (f : Function) (x y : ℚ) (check : Bool) : Except Err Function :=
  if check = true ∧ x ∈ f.points.map Prod.fst then .error .duplicatePoint
  else
    let index := search_best_index f.points x 0 f.points.length
    let pts := f.points.insertIdx index (x, y)
    match f.cache with
    | none => .ok ⟨pts, none⟩
    | some (m, ipts) =>
      if index = pts.length - 1 then
        match updateIntegral m ipts pts with
        | .error e => .error e
        | .ok ipts2 => .ok ⟨pts, some (m, ipts2)⟩
      else
        match pyGet ipts 0 with
        | .error e => .error e
        | .ok p0 =>
          match integralBuild m pts p0.1 p0.2 with
          | .error e => .error e
          | .ok newI => .ok ⟨pts, some (m, newI)⟩

/-- Embeds `Function.integral` as a state transformer: build the integral point
list and store it (with the method) as the cache of the function.  The
Python method returns the integral itself, i.e. the cache contents of the
result. -/
def Function.integral (f : Function) (m : IntegrationMethod) (xi yi : ℚ) : Except Err Function :=
  match integralBuild m f.points xi yi with
  | .error e => .error e
  | .ok ipts => .ok ⟨f.points, some (m, ipts)⟩

/-- Embeds `Function.from_iter`: start from an empty function and insert every
pair in order of iteration (no duplicate check). -/
def from_iter (l : List Pt) : Except Err Function :=
  l.foldlM (fun f p => f.insert p.1 p.2 false) ⟨[], none⟩

/-- The stored points are ordered by x (non-decreasing). -/
def SortedX (pts : List Pt) : Prop :=
  pts.Pairwise (fun a b => a.1 ≤ b.1)

/-- The stored points have strictly increasing x-values. -/
def StrictX (pts : List Pt) : Prop :=
  pts.Pairwise (fun a b => a.1 < b.1)

instance (pts : List Pt) : Decidable (SortedX pts) :=
  List.instDecidablePairwise pts

instance (pts : List Pt) : Decidable (StrictX pts) :=
  List.instDecidablePairwise pts

theorem getD_pt_eq (l : List Pt) (i : ℕ) (h : i < l.length) :
    l.getD i (0, 0) = l.get ⟨i, h⟩ :=
  List.getD_eq_get l (0, 0) h

theorem sortedX_le (pts : List Pt) (hs : SortedX pts) (i j : ℕ) (hij : i ≤ j)
    (hj : j < pts.length) :
    (pts.getD i (0, 0)).1 ≤ (pts.getD j (0, 0)).1 := by
  rcases Nat.lt_or_ge i j with h | h
  · rw [getD_pt_eq pts i (by omega), getD_pt_eq pts j hj]
    exact List.pairwise_iff_get.mp hs ⟨i, by omega⟩ ⟨j, hj⟩ h
  · have hij2 : i = j := by omega
    subst hij2; rfl

theorem strictX_lt (pts : List Pt) (hs : StrictX pts) (i j : ℕ) (hij : i < j)
    (hj : j < pts.length) :
    (pts.getD i (0, 0)).1 < (pts.getD j (0, 0)).1 := by
  rw [getD_pt_eq pts i (by omega), getD_pt_eq pts j hj]
  exact List.pairwise_iff_get.mp hs ⟨i, by omega⟩ ⟨j, hj⟩ hij

theorem searchLoop_bounds (pts : List Pt) (x : ℚ) :
    ∀ fuel start stop, stop - start ≤ fuel → start ≤ stop →
      start ≤ searchLoop pts x fuel start stop ∧ searchLoop pts x fuel start stop ≤ stop := by
  intro fuel
  induction fuel with
  | zero =>
    intro start stop h1 h2
    simp only [searchLoop]
    omega
  | succ n ih =>
    intro start stop h1 h2
    simp only [searchLoop]
    by_cases hss : stop ≤ start
    · rw [if_pos hss]; omega
    · rw [if_neg hss]
      by_cases hgt : x > (pts.getD (start + (stop - start) / 2) (0, 0)).1
      · rw [if_pos hgt]
        have := ih (start + (stop - start) / 2 + 1) stop (by omega) (by omega)
        omega
      · rw [if_neg hgt]
        by_cases hlt : x < (pts.getD (start + (stop - start) / 2) (0, 0)).1
        · rw [if_pos hlt]
          have := ih start (start + (stop - start) / 2) (by omega) (by omega)
          omega
        · rw [if_neg hlt]; omega

theorem search_bounds (pts : List Pt) (x : ℚ) (start stop : ℕ) (h : start ≤ stop) :
    start ≤ search_best_index pts x start stop ∧ search_best_index pts x start stop ≤ stop :=
  searchLoop_bounds pts x (stop - start) start stop (le_refl _) h

theorem searchLoop_eq_stop (pts : List Pt) (x : ℚ) :
    ∀ fuel start stop, stop - start ≤ fuel → start < stop →
      searchLoop pts x fuel start stop = stop →
      (pts.getD (stop - 1) (0, 0)).1 < x := by
  intro fuel
  induction fuel with
  | zero =>
    intro start stop h1 h2 hr
    omega
  | succ n ih =>
    intro start stop h1 h2 hr
    simp only [searchLoop] at hr
    rw [if_neg (by omega)] at hr
    by_cases hgt : x > (pts.getD (start + (stop - start) / 2) (0, 0)).1
    · rw [if_pos hgt] at hr
      by_cases hc : start + (stop - start) / 2 + 1 = stop
      · have he : stop - 1 = start + (stop - start) / 2 := by omega
        rw [he]; exact hgt
      · exact ih (start + (stop - start) / 2 + 1) stop (by omega) (by omega) hr
    · rw [if_neg hgt] at hr
      by_cases hlt : x < (pts.getD (start + (stop - start) / 2) (0, 0)).1
      · rw [if_pos hlt] at hr
        have hb := searchLoop_bounds pts x n start (start + (stop - start) / 2) (by omega) (by omega)
        omega
      · rw [if_neg hlt] at hr
        omega

theorem search_eq_stop (pts : List Pt) (x : ℚ) (start stop : ℕ) :
    start < stop → search_best_index pts x start stop = stop →
    (pts.getD (stop - 1) (0, 0)).1 < x :=
  searchLoop_eq_stop pts x (stop - start) start stop (le_refl _)

theorem searchLoop_lower (pts : List Pt) (x : ℚ) (hs : SortedX pts) :
    ∀ fuel start stop, stop - start ≤ fuel → stop ≤ pts.length →
      ∀ j, start ≤ j → j < searchLoop pts x fuel start stop →
        (pts.getD j (0, 0)).1 ≤ x := by
  intro fuel
  induction fuel with
  | zero =>
    intro start stop h1 hlen j hj1 hj2
    simp only [searchLoop] at hj2
    omega
  | succ n ih =>
    intro start stop h1 hlen j hj1 hj2
    simp only [searchLoop] at hj2
    by_cases hss : stop ≤ start
    · rw [if_pos hss] at hj2; omega
    · rw [if_neg hss] at hj2
      by_cases hgt : x > (pts.getD (start + (stop - start) / 2) (0, 0)).1
      · rw [if_pos hgt] at hj2
        by_cases hc : start + (stop - start) / 2 + 1 ≤ j
        · exact ih (start + (stop - start) / 2 + 1) stop (by omega) hlen j hc hj2
        · have hm : (pts.getD j (0, 0)).1 ≤ (pts.getD (start + (stop - start) / 2) (0, 0)).1 :=
            sortedX_le pts hs j _ (by omega) (by omega)
          exact le_of_lt (lt_of_le_of_lt hm hgt)
      · rw [if_neg hgt] at hj2
        by_cases hlt : x < (pts.getD (start + (stop - start) / 2) (0, 0)).1
        · rw [if_pos hlt] at hj2
          exact ih start (start + (stop - start) / 2) (by omega) (by omega) j hj1 hj2
        · rw [if_neg hlt] at hj2
          have hm : (pts.getD j (0, 0)).1 ≤ (pts.getD (start + (stop - start) / 2) (0, 0)).1 :=
            sortedX_le pts hs j _ (by omega) (by omega)
          exact le_trans hm (not_lt.mp hlt)

theorem search_lower (pts : List Pt) (x : ℚ) (hs : SortedX pts) :
    ∀ start stop, stop ≤ pts.length →
      ∀ j, start ≤ j → j < search_best_index pts x start stop →
        (pts.getD j (0, 0)).1 ≤ x := fun start stop =>
  searchLoop_lower pts x hs (stop - start) start stop (le_refl _)

theorem searchLoop_upper (pts : List Pt) (x : ℚ) (hs : SortedX pts) :
    ∀ fuel start stop, stop - start ≤ fuel → stop ≤ pts.length →
      ∀ j, searchLoop pts x fuel start stop ≤ j → j < stop →
        x ≤ (pts.getD j (0, 0)).1 := by
  intro fuel
  induction fuel with
  | zero =>
    intro start stop h1 hlen j hj1 hj2
    simp only [searchLoop] at hj1
    omega
  | succ n ih =>
    intro start stop h1 hlen j hj1 hj2
    simp only [searchLoop] at hj1
    by_cases hss : stop ≤ start
    · rw [if_pos hss] at hj1; omega
    · rw [if_neg hss] at hj1
      by_cases hgt : x > (pts.getD (start + (stop - start) / 2) (0, 0)).1
      · rw [if_pos hgt] at hj1
        exact ih (start + (stop - start) / 2 + 1) stop (by omega) hlen j hj1 hj2
      · rw [if_neg hgt] at hj1
        by_cases hlt : x < (pts.getD (start + (stop - start) / 2) (0, 0)).1
        · rw [if_pos hlt] at hj1
          by_cases hc : j < start + (stop - start) / 2
          · exact ih start (start + (stop - start) / 2) (by omega) (by omega) j hj1 hc
          · have hm : (pts.getD (start + (stop - start) / 2) (0, 0)).1 ≤ (pts.getD j (0, 0)).1 :=
              sortedX_le pts hs _ j (by omega) (by omega)
            exact le_of_lt (lt_of_lt_of_le hlt hm)
        · rw [if_neg hlt] at hj1
          have hm : (pts.getD (start + (stop - start) / 2) (0, 0)).1 ≤ (pts.getD j (0, 0)).1 :=
            sortedX_le pts hs _ j (by omega) (by omega)
          exact le_trans (not_lt.mp hgt) hm

theorem search_upper (pts : List Pt) (x : ℚ) (hs : SortedX pts) :
    ∀ start stop, stop ≤ pts.length →
      ∀ j, search_best_index pts x start stop ≤ j → j < stop →
        x ≤ (pts.getD j (0, 0)).1 := fun start stop =>
  searchLoop_upper pts x hs (stop - start) start stop (le_refl _)

theorem searchLoop_exact (pts : List Pt) (x : ℚ) (hst : StrictX pts) :
    ∀ fuel start stop i, stop - start ≤ fuel → start ≤ i → i < stop → stop ≤ pts.length →
      (pts.getD i (0, 0)).1 = x → searchLoop pts x fuel start stop = i := by
  intro fuel
  induction fuel with
  | zero =>
    intro start stop i h1 h2 h3 _ _
    omega
  | succ n ih =>
    intro start stop i h1 h2 hi hlen hx
    simp only [searchLoop]
    rw [if_neg (by omega)]
    by_cases hgt : x > (pts.getD (start + (stop - start) / 2) (0, 0)).1
    · rw [if_pos hgt]
      have hio : start + (stop - start) / 2 < i := by
        by_contra hc
        rcases Nat.lt_or_ge i (start + (stop - start) / 2) with hlt2 | hge
        · have := strictX_lt pts hst i (start + (stop - start) / 2) hlt2 (by omega)
          rw [hx] at this
          exact absurd hgt (not_lt.mpr (le_of_lt this))
        · have hieq : i = start + (stop - start) / 2 := by omega
          rw [hieq] at hx
          exact absurd hgt (not_lt.mpr (le_of_eq hx.symm))
      exact ih (start + (stop - start) / 2 + 1) stop i (by omega) (by omega) hi hlen hx
    · rw [if_neg hgt]
      by_cases hlt : x < (pts.getD (start + (stop - start) / 2) (0, 0)).1
      · rw [if_pos hlt]
        have hio : i < start + (stop - start) / 2 := by
          by_contra hc
          rcases Nat.lt_or_ge (start + (stop - start) / 2) i with hlt2 | hge
          · have := strictX_lt pts hst (start + (stop - start) / 2) i hlt2 (by omega)
            rw [hx] at this
            exact absurd hlt (not_lt.mpr (le_of_lt this))
          · have hieq : i = start + (stop - start) / 2 := by omega
            rw [hieq] at hx
            exact absurd hlt (not_lt.mpr (le_of_eq hx))
        exact ih start (start + (stop - start) / 2) i (by omega) h2 hio (by omega) hx
      · rw [if_neg hlt]
        have hmid : (pts.getD (start + (stop - start) / 2) (0, 0)).1 = x :=
          le_antisymm (not_lt.mp hlt) (not_lt.mp hgt)
        by_contra hc
        rcases Nat.lt_or_ge i (start + (stop - start) / 2) with hlt2 | hge
        · have := strictX_lt pts hst i (start + (stop - start) / 2) hlt2 (by omega)
          rw [hx, hmid] at this
          exact absurd this (lt_irrefl x)
        · have hlt3 : start + (stop - start) / 2 < i := by omega
          have := strictX_lt pts hst (start + (stop - start) / 2) i hlt3 (by omega)
          rw [hx, hmid] at this
          exact absurd this (lt_irrefl x)

theorem search_exact (pts : List Pt) (x : ℚ) (hst : StrictX pts) :
    ∀ start stop i, start ≤ i → i < stop → stop ≤ pts.length →
      (pts.getD i (0, 0)).1 = x → search_best_index pts x start stop = i := fun start stop i =>
  searchLoop_exact pts x hst (stop - start) start stop i (le_refl _)


theorem pyGet_nat {α : Type} (l : List α) (i : ℕ) (h : i < l.length) :
    pyGet l (i : ℤ) = .ok (l.get ⟨i, h⟩) := by
  unfold pyGet
  have h1 : ¬ ((i : ℤ) < 0) := by omega
  have h2 : (0 : ℤ) ≤ (i : ℤ) ∧ (i : ℤ) < l.length := by omega
  simp only [h1, if_false, dif_pos h2]
  rfl

theorem pyGet_neg_one {α : Type} (l : List α) (h : l ≠ []) :
    pyGet l (-1) = .ok (l.get ⟨l.length - 1, by
      have := List.length_pos.mpr h; omega⟩) := by
  unfold pyGet
  have hl : 0 < l.length := List.length_pos.mpr h
  have h1 : (-1 : ℤ) < 0 := by omega
  have h2 : (0 : ℤ) ≤ -1 + (l.length : ℤ) ∧ -1 + (l.length : ℤ) < (l.length : ℤ) := by
    constructor <;> omega
  have h3 : ((-1 : ℤ) + (l.length : ℤ)).toNat = l.length - 1 := by omega
  simp only [h1, if_true, dif_pos h2, h3]

theorem pyGet_too_big {α : Type} (l : List α) (i : ℕ) (h : l.length ≤ i) :
    pyGet l (i : ℤ) = .error .indexOutOfRange := by
  unfold pyGet
  have h1 : ¬ ((i : ℤ) < 0) := by omega
  have h2 : ¬ ((0 : ℤ) ≤ (i : ℤ) ∧ (i : ℤ) < l.length) := by omega
  simp only [h1, if_false, dif_neg h2]

theorem getD_mem (pts : List Pt) (j : ℕ) (hj : j < pts.length) :
    pts.getD j (0, 0) ∈ pts := by
  rw [getD_pt_eq pts j hj]
  exact List.get_mem pts j hj

theorem search_gt_all (pts : List Pt) (x : ℚ) (hs : SortedX pts)
    (hgt : ∀ p ∈ pts, p.1 < x) :
    search_best_index pts x 0 pts.length = pts.length := by
  have hb := search_bounds pts x 0 pts.length (by omega)
  by_contra hc
  have hlt : search_best_index pts x 0 pts.length < pts.length := by omega
  have hup := search_upper pts x hs 0 pts.length (le_refl _) _ (le_refl _) hlt
  have hmem := getD_mem pts (search_best_index pts x 0 pts.length) hlt
  exact absurd (hgt _ hmem) (not_lt.mpr hup)

theorem insertPoint_append (pts : List Pt) (x y : ℚ) (hs : SortedX pts)
    (hgt : ∀ p ∈ pts, p.1 < x) :
    insertPoint pts x y = pts ++ [(x, y)] := by
  unfold insertPoint
  rw [search_gt_all pts x hs hgt, List.insertIdx_length_self]

theorem insertIdx_perm {α : Type} :
    ∀ (l : List α) (i : ℕ) (p : α), i ≤ l.length → List.Perm (l.insertIdx i p) (p :: l)
  | _, 0, p, _ => by simp
  | [], _ + 1, p, h => by simp at h
  | a :: l, i + 1, p, h => by
    rw [List.insertIdx_succ_cons]
    exact ((insertIdx_perm l i p (by simpa using h)).cons a).trans (List.Perm.swap p a l)

theorem pairwise_insertIdx {R : Pt → Pt → Prop} :
    ∀ (l : List Pt) (i : ℕ) (p : Pt), i ≤ l.length → l.Pairwise R →
      (∀ j (hj : j < l.length), j < i → R (l.get ⟨j, hj⟩) p) →
      (∀ j (hj : j < l.length), i ≤ j → R p (l.get ⟨j, hj⟩)) →
      (l.insertIdx i p).Pairwise R
  | l, 0, p, _, hl, _, h2 => by
    simp only [List.insertIdx_zero]
    refine List.pairwise_cons.mpr ⟨?_, hl⟩
    intro b hb
    obtain ⟨j, rfl⟩ := List.mem_iff_get.mp hb
    exact h2 j.1 j.2 (by omega)
  | [], i + 1, p, hi, _, _, _ => by simp at hi
  | a :: l, i + 1, p, hi, hl, h1, h2 => by
    rw [List.insertIdx_succ_cons]
    have hl2 := List.pairwise_cons.mp hl
    refine List.pairwise_cons.mpr ⟨?_, ?_⟩
    · intro b hb
      rcases (List.mem_insertIdx (by simpa using hi)).mp hb with rfl | hbl
      · exact h1 0 (by simp) (by omega)
      · exact hl2.1 b hbl
    · exact pairwise_insertIdx l i p (by simpa using hi) hl2.2
        (fun j hj hji => h1 (j + 1) (by simpa using hj) (by omega))
        (fun j hj hji => h2 (j + 1) (by simpa using hj) (by omega))

theorem StrictX.sortedX {pts : List Pt} (h : StrictX pts) : SortedX pts :=
  List.Pairwise.imp (fun hab => le_of_lt hab) h

theorem insertPoint_sortedX (pts : List Pt) (x y : ℚ) (hs : SortedX pts) :
    SortedX (insertPoint pts x y) := by
  unfold insertPoint
  have hb := search_bounds pts x 0 pts.length (by omega)
  refine pairwise_insertIdx pts _ (x, y) (by omega) hs ?_ ?_
  · intro j hj hji
    have := search_lower pts x hs 0 pts.length (le_refl _) j (by omega) hji
    rw [getD_pt_eq pts j hj] at this
    exact this
  · intro j hj hji
    have := search_upper pts x hs 0 pts.length (le_refl _) j hji hj
    rw [getD_pt_eq pts j hj] at this
    exact this

theorem insertPoint_strictX (pts : List Pt) (x y : ℚ) (hs : StrictX pts)
    (hx : x ∉ pts.map Prod.fst) :
    StrictX (insertPoint pts x y) := by
  unfold insertPoint
  have hb := search_bounds pts x 0 pts.length (by omega)
  have hne : ∀ j (hj : j < pts.length), (pts.get ⟨j, hj⟩).1 ≠ x := by
    intro j hj hc
    exact hx (List.mem_map.mpr ⟨pts.get ⟨j, hj⟩, List.get_mem pts j hj, hc⟩)
  refine pairwise_insertIdx pts _ (x, y) (by omega) hs ?_ ?_
  · intro j hj hji
    have := search_lower pts x hs.sortedX 0 pts.length (le_refl _) j (by omega) hji
    rw [getD_pt_eq pts j hj] at this
    exact lt_of_le_of_ne this (hne j hj)
  · intro j hj hji
    have := search_upper pts x hs.sortedX 0 pts.length (le_refl _) j hji hj
    rw [getD_pt_eq pts j hj] at this
    exact lt_of_le_of_ne this (fun hc => hne j hj hc.symm)

theorem insertPoint_fst_perm (pts : List Pt) (x y : ℚ) :
    List.Perm ((insertPoint pts x y).map Prod.fst) (x :: pts.map Prod.fst) := by
  unfold insertPoint
  have hb := search_bounds pts x 0 pts.length (by omega)
  exact (insertIdx_perm pts _ (x, y) (by omega)).map Prod.fst

theorem interp_at_b (a b : Pt) (h : a.1 ≠ b.1) :
    (b.2 - a.2) / (b.1 - a.1) * (b.1 - a.1) + a.2 = b.2 := by
  rw [div_mul_cancel₀ _ (sub_ne_zero.mpr (fun hc => h hc.symm))]
  ring

theorem getLast?_getD (pts : List Pt) :
    pts.getLast?.getD (0, 0) = pts.getD (pts.length - 1) (0, 0) := by
  rw [List.getLast?_eq_get? pts, List.getD_eq_get?]

theorem head?_getD (pts : List Pt) :
    pts.head?.getD (0, 0) = pts.getD 0 (0, 0) := by
  cases pts with
  | nil => rfl
  | cons a l => rfl

/-- Branch-condition shorthand: the index `Function.__call__` selects for a
point list with at least two stored points. -/
def callIndex (pts : List Pt) (x : ℚ) : ℕ :=
  if x > (pts.getLast?.getD (0, 0)).1 then pts.length - 1
  else if x < (pts.head?.getD (0, 0)).1 then 1
  else search_best_index pts x 0 pts.length

theorem callF_eq_callIndex (pts : List Pt) (x : ℚ) (h0 : pts ≠ [])
    (h2 : pts.length ≠ 1) :
    callF pts x =
      match pyGet pts ((callIndex pts x : ℤ) - 1), pyGet pts (callIndex pts x : ℤ) with
      | .ok a, .ok b => .ok ((b.2 - a.2) / (b.1 - a.1) * (x - a.1) + a.2)
      | .error e, _ => .error e
      | _, .error e => .error e := by
  unfold callF callIndex
  rw [if_neg h0, if_neg h2]

theorem callF_segment (pts : List Pt) (x : ℚ) (h2 : 2 ≤ pts.length) (index : ℕ)
    (hidx : callIndex pts x = index) (h1i : 1 ≤ index) (hil : index < pts.length) :
    callF pts x =
      .ok (((pts.getD index (0, 0)).2 - (pts.getD (index - 1) (0, 0)).2) /
            ((pts.getD index (0, 0)).1 - (pts.getD (index - 1) (0, 0)).1) *
            (x - (pts.getD (index - 1) (0, 0)).1) + (pts.getD (index - 1) (0, 0)).2) := by
  have h0 : pts ≠ [] := by
    intro hc; rw [hc] at h2; simp at h2
  rw [callF_eq_callIndex pts x h0 (by omega), hidx]
  have hc1 : ((index : ℤ) - 1) = ((index - 1 : ℕ) : ℤ) := by omega
  rw [hc1, pyGet_nat pts (index - 1) (by omega), pyGet_nat pts index hil]
  rw [getD_pt_eq pts index hil, getD_pt_eq pts (index - 1) (by omega)]

theorem callF_segment_zero (pts : List Pt) (x : ℚ) (h2 : 2 ≤ pts.length)
    (hidx : callIndex pts x = 0) :
    callF pts x =
      .ok (((pts.getD 0 (0, 0)).2 - (pts.getD (pts.length - 1) (0, 0)).2) /
            ((pts.getD 0 (0, 0)).1 - (pts.getD (pts.length - 1) (0, 0)).1) *
            (x - (pts.getD (pts.length - 1) (0, 0)).1) +
            (pts.getD (pts.length - 1) (0, 0)).2) := by
  have h0 : pts ≠ [] := by
    intro hc; rw [hc] at h2; simp at h2
  rw [callF_eq_callIndex pts x h0 (by omega), hidx]
  have hc1 : (((0 : ℕ) : ℤ) - 1) = (-1 : ℤ) := by omega
  rw [hc1, pyGet_neg_one pts h0, pyGet_nat pts 0 (by omega)]
  rw [getD_pt_eq pts 0 (by omega), getD_pt_eq pts (pts.length - 1) (by omega)]

/-- C1: for every Function whose stored points have strictly increasing
x-values and number at least 2, calling the function at any stored x-value
returns exactly the stored y-value paired with it, including at the
leftmost and rightmost stored points. -/
theorem claim_C1 (pts : List Pt) (hst : StrictX pts) (h2 : 2 ≤ pts.length)
    (i : ℕ) (hi : i < pts.length) :
    callF pts ((pts.getD i (0, 0)).1) = .ok ((pts.getD i (0, 0)).2) := by
  have hs := hst.sortedX
  have h0 : pts ≠ [] := by
    intro hc; rw [hc] at h2; simp at h2
  have hlast : ¬ ((pts.getD i (0, 0)).1 > (pts.getLast?.getD (0, 0)).1) := by
    rw [getLast?_getD pts]
    exact not_lt.mpr (sortedX_le pts hs i (pts.length - 1) (by omega) (by omega))
  have hhead : ¬ ((pts.getD i (0, 0)).1 < (pts.head?.getD (0, 0)).1) := by
    rw [head?_getD pts]
    exact not_lt.mpr (sortedX_le pts hs 0 i (by omega) hi)
  have hsearch : search_best_index pts ((pts.getD i (0, 0)).1) 0 pts.length = i :=
    search_exact pts _ hst 0 pts.length i (by omega) hi (le_refl _) rfl
  have hidx : callIndex pts ((pts.getD i (0, 0)).1) = i := by
    unfold callIndex
    rw [if_neg hlast, if_neg hhead, hsearch]
  rcases Nat.eq_zero_or_pos i with hz | hpos
  · subst hz
    rw [callF_segment_zero pts _ h2 hidx]
    congr 1
    exact interp_at_b (pts.getD (pts.length - 1) (0, 0)) (pts.getD 0 (0, 0))
      (ne_of_gt (strictX_lt pts hst 0 (pts.length - 1) (by omega) (by omega)))
  · rw [callF_segment pts _ h2 i hidx hpos hi]
    congr 1
    exact interp_at_b (pts.getD (i - 1) (0, 0)) (pts.getD i (0, 0))
      (ne_of_lt (strictX_lt pts hst (i - 1) i (by omega) hi))

/-- Witness for C1 at the concrete function [(0,0), (1,2)] and its leftmost
stored point. -/
theorem claim_C1_witness :
    StrictX [((0 : ℚ), (0 : ℚ)), (1, 2)] ∧
      callF [((0 : ℚ), (0 : ℚ)), (1, 2)]
          (([((0 : ℚ), (0 : ℚ)), (1, 2)].getD 0 (0, 0)).1) =
        .ok (([((0 : ℚ), (0 : ℚ)), (1, 2)].getD 0 (0, 0)).2) :=
  ⟨by decide, claim_C1 [(0, 0), (1, 2)] (by decide) (by decide) 0 (by decide)⟩

/-- C9: calling a Function with zero stored points fails with EmptyFunction;
with exactly one point it returns that point's y for every x; with at least
two points, x above the rightmost stored x extrapolates along the last
segment's slope and x below the leftmost stored x extrapolates along the
first segment's slope. -/
theorem claim_C9 (x : ℚ) (p : Pt) (pts : List Pt) (hst : StrictX pts)
    (h2 : 2 ≤ pts.length) :
    callF [] x = .error .emptyFunction ∧
    callF [p] x = .ok p.2 ∧
    (x > (pts.getD (pts.length - 1) (0, 0)).1 →
      callF pts x =
        .ok (((pts.getD (pts.length - 1) (0, 0)).2 - (pts.getD (pts.length - 2) (0, 0)).2) /
              ((pts.getD (pts.length - 1) (0, 0)).1 - (pts.getD (pts.length - 2) (0, 0)).1) *
              (x - (pts.getD (pts.length - 2) (0, 0)).1) +
              (pts.getD (pts.length - 2) (0, 0)).2)) ∧
    (x < (pts.getD 0 (0, 0)).1 →
      callF pts x =
        .ok (((pts.getD 1 (0, 0)).2 - (pts.getD 0 (0, 0)).2) /
              ((pts.getD 1 (0, 0)).1 - (pts.getD 0 (0, 0)).1) *
              (x - (pts.getD 0 (0, 0)).1) + (pts.getD 0 (0, 0)).2)) := by
  have hs := hst.sortedX
  refine ⟨rfl, by simp [callF], ?_, ?_⟩
  · intro hgt
    have hidx : callIndex pts x = pts.length - 1 := by
      unfold callIndex
      rw [getLast?_getD pts, if_pos hgt]
    rw [callF_segment pts x h2 (pts.length - 1) hidx (by omega) (by omega)]
    have he : pts.length - 1 - 1 = pts.length - 2 := by omega
    rw [he]
  · intro hlt
    have hnotgt : ¬ (x > (pts.getLast?.getD (0, 0)).1) := by
      rw [getLast?_getD pts]
      have := sortedX_le pts hs 0 (pts.length - 1) (by omega) (by omega)
      exact not_lt.mpr (le_of_lt (lt_of_lt_of_le hlt this))
    have hidx : callIndex pts x = 1 := by
      unfold callIndex
      rw [if_neg hnotgt, head?_getD pts, if_pos hlt]
    rw [callF_segment pts x h2 1 hidx (le_refl 1) (by omega)]

unseal Rat.mul Rat.add Rat.sub Rat.inv in
/-- Witness for C9 at x = 5 (beyond the right end of [(0,0), (1,2)]) and
the one-point function [(3,7)]. -/
theorem claim_C9_witness :
    StrictX [((0 : ℚ), (0 : ℚ)), (1, 2)] ∧
      callF [((3 : ℚ), (7 : ℚ))] 5 = .ok 7 ∧
      callF [((0 : ℚ), (0 : ℚ)), (1, 2)] 5 = .ok 10 := by
  have h := claim_C9 5 (3, 7) [(0, 0), (1, 2)] (by decide) (by decide)
  refine ⟨by decide, h.2.1, ?_⟩
  have h3 := h.2.2.1 (by decide)
  rw [h3]
  decide

/-- The pure point-list effect of `Function.from_iter`: fold plain sorted
insertion over the iterated pairs. -/
def fromIterPoints (l : List Pt) : List Pt :=
  l.foldl (fun ps p => insertPoint ps p.1 p.2) []

theorem insert_nocache (pts : List Pt) (x y : ℚ) :
    Function.insert ⟨pts, none⟩ x y false = .ok ⟨insertPoint pts x y, none⟩ := by
  unfold Function.insert
  rw [if_neg (by simp)]
  rfl

theorem from_iter_go (l : List Pt) (pts : List Pt) :
    List.foldlM (fun f p => Function.insert f p.1 p.2 false) (⟨pts, none⟩ : Function) l
      = .ok ⟨l.foldl (fun ps p => insertPoint ps p.1 p.2) pts, none⟩ := by
  induction l generalizing pts with
  | nil => rfl
  | cons p rest ih =>
    rw [List.foldlM_cons, insert_nocache]
    simpa using ih (insertPoint pts p.1 p.2)

theorem from_iter_eq (l : List Pt) :
    from_iter l = .ok ⟨fromIterPoints l, none⟩ :=
  from_iter_go l []

theorem fromIter_fold_sorted (l : List Pt) (acc : List Pt) (ha : SortedX acc) :
    SortedX (l.foldl (fun ps p => insertPoint ps p.1 p.2) acc) := by
  induction l generalizing acc with
  | nil => exact ha
  | cons p rest ih =>
    simp only [List.foldl_cons]
    exact ih _ (insertPoint_sortedX acc p.1 p.2 ha)

theorem fromIter_fold_strict (l : List Pt) (acc : List Pt) (ha : StrictX acc)
    (hnd : (acc.map Prod.fst ++ l.map Prod.fst).Nodup) :
    StrictX (l.foldl (fun ps p => insertPoint ps p.1 p.2) acc) := by
  induction l generalizing acc with
  | nil => exact ha
  | cons p rest ih =>
    simp only [List.foldl_cons]
    have hperm1 : List.Perm (acc.map Prod.fst ++ p.1 :: rest.map Prod.fst)
        (p.1 :: (acc.map Prod.fst ++ rest.map Prod.fst)) := List.perm_middle
    have hnd2 : (p.1 :: (acc.map Prod.fst ++ rest.map Prod.fst)).Nodup :=
      hperm1.nodup (by simpa using hnd)
    have hnotmem : p.1 ∉ acc.map Prod.fst := by
      intro hc
      exact (List.nodup_cons.mp hnd2).1 (List.mem_append_left _ hc)
    apply ih
    · exact insertPoint_strictX acc p.1 p.2 ha hnotmem
    · have hperm2 : List.Perm ((insertPoint acc p.1 p.2).map Prod.fst ++ rest.map Prod.fst)
          (p.1 :: (acc.map Prod.fst ++ rest.map Prod.fst)) := by
        have := (insertPoint_fst_perm acc p.1 p.2).append_right (rest.map Prod.fst)
        simpa using this
      exact hperm2.symm.nodup hnd2

/-- C2: insertion places every new point so that the stored points stay
ordered by x — non-decreasing always, strictly increasing when the inserted
x-values are pairwise distinct — so from_iter yields a function sorted by x
regardless of input order. -/
theorem claim_C2 (pts : List Pt) (x y : ℚ) (l : List Pt) (f : Function)
    (hs : SortedX pts) :
    SortedX (insertPoint pts x y) ∧
    (from_iter l = .ok f → SortedX f.points) ∧
    ((l.map Prod.fst).Nodup → from_iter l = .ok f → StrictX f.points) := by
  refine ⟨insertPoint_sortedX pts x y hs, ?_, ?_⟩
  · intro h
    rw [from_iter_eq l] at h
    cases h
    exact fromIter_fold_sorted l [] List.Pairwise.nil
  · intro hnd h
    rw [from_iter_eq l] at h
    cases h
    exact fromIter_fold_strict l [] List.Pairwise.nil (by simpa using hnd)

/-- Witness for C2 at the out-of-order input [(0,0), (2,4), (1,2)] of the
specification's end-to-end example. -/
theorem claim_C2_witness :
    SortedX [((0 : ℚ), (1 : ℚ)), (2, 2)] ∧
      from_iter [((0 : ℚ), (0 : ℚ)), (2, 4), (1, 2)] =
        .ok ⟨[(0, 0), (1, 2), (2, 4)], none⟩ ∧
      StrictX [((0 : ℚ), (0 : ℚ)), (1, 2), (2, 4)] := by
  have h := claim_C2 [((0 : ℚ), (1 : ℚ)), (2, 2)] 1 5
    [((0 : ℚ), (0 : ℚ)), (2, 4), (1, 2)] ⟨[(0, 0), (1, 2), (2, 4)], none⟩ (by decide)
  have hok : from_iter [((0 : ℚ), (0 : ℚ)), (2, 4), (1, 2)] =
      .ok ⟨[(0, 0), (1, 2), (2, 4)], none⟩ := by decide
  exact ⟨by decide, hok, h.2.2 (by decide) hok⟩

theorem sortedX_le_last (pts : List Pt) (hs : SortedX pts) (p : Pt) (hp : p ∈ pts) :
    p.1 ≤ (pts.getD (pts.length - 1) (0, 0)).1 := by
  obtain ⟨j, rfl⟩ := List.mem_iff_get.mp hp
  have hj := j.2
  have := sortedX_le pts hs j.1 (pts.length - 1) (by omega) (by omega)
  rw [getD_pt_eq pts j.1 (by omega)] at this
  simpa using this

theorem appendF_end (pts : List Pt) (dx dy : ℚ) (h0 : pts ≠ []) (hs : SortedX pts)
    (hdx : 0 < dx) :
    appendF pts dx dy =
      .ok (pts ++ [((pts.getD (pts.length - 1) (0, 0)).1 + dx,
                    (pts.getD (pts.length - 1) (0, 0)).2 + dy)]) := by
  have hlen : 0 < pts.length := List.length_pos.mpr h0
  unfold appendF
  rw [pyGet_neg_one pts h0, ← getD_pt_eq pts (pts.length - 1) (by omega)]
  have hgt : ∀ p ∈ pts, p.1 < (pts.getD (pts.length - 1) (0, 0)).1 + dx := by
    intro p hp
    have := sortedX_le_last pts hs p hp
    linarith
  show Except.ok (insertPoint pts ((pts.getD (pts.length - 1) (0, 0)).1 + dx)
      ((pts.getD (pts.length - 1) (0, 0)).2 + dy)) = _
  rw [insertPoint_append pts _ _ hs hgt]

/-- C3: one trapezoidal integration step (single sub-interval) appends to
the integral f exactly one point at f's last stored x plus dx, whose
y-increment is dx/2 * (d(xLast - dx) + d(xLast)) with xLast the rightmost
stored x of the derivative d — the derivative is probed one step-width
behind its own right edge, not at f's forward endpoints. -/
theorem claim_C3 (fpts dpts : List Pt) (dx va vb : ℚ)
    (hf0 : fpts ≠ []) (hfs : SortedX fpts) (hd0 : dpts ≠ []) (hds : SortedX dpts)
    (hdx : 0 < dx)
    (hva : callF dpts ((dpts.getD (dpts.length - 1) (0, 0)).1 - dx) = .ok va)
    (hvb : callF dpts ((dpts.getD (dpts.length - 1) (0, 0)).1) = .ok vb) :
    integrate_trapezoidal fpts dpts dx 1 =
      .ok (fpts ++ [((fpts.getD (fpts.length - 1) (0, 0)).1 + dx,
                     (fpts.getD (fpts.length - 1) (0, 0)).2 + dx / 2 * (va + vb))]) := by
  unfold integrate_trapezoidal
  rw [pyGet_neg_one dpts hd0, ← getD_pt_eq dpts (dpts.length - 1)
    (by have := List.length_pos.mpr hd0; omega)]
  simp only [Nat.cast_one, div_one, trapezoidalArea, hva, hvb, zero_add]
  exact appendF_end fpts dx (dx / 2 * (va + vb)) hf0 hfs hdx

unseal Rat.mul Rat.add Rat.sub Rat.inv in
/-- Witness for C3: one trapezoidal step from f = [(0,0)] with derivative
[(0,3), (1,3)] and dx = 1 appends the single point (1, 3). -/
theorem claim_C3_witness :
    (0 : ℚ) < 1 ∧
      callF [((0 : ℚ), (3 : ℚ)), (1, 3)] (([((0 : ℚ), (3 : ℚ)), (1, 3)].getD 1 (0, 0)).1 - 1)
        = .ok 3 ∧
      integrate_trapezoidal [((0 : ℚ), (0 : ℚ))] [((0 : ℚ), (3 : ℚ)), (1, 3)] 1 1
        = .ok [(0, 0), (1, 3)] := by
  have h := claim_C3 [((0 : ℚ), (0 : ℚ))] [((0 : ℚ), (3 : ℚ)), (1, 3)] 1 3 3
    (by decide) (by decide) (by decide) (by decide) (by decide) (by decide) (by decide)
  refine ⟨by decide, by decide, ?_⟩
  rw [h]
  decide

theorem callIndex_lt (pts : List Pt) (x : ℚ) (h2 : 2 ≤ pts.length) :
    callIndex pts x < pts.length := by
  unfold callIndex
  by_cases hgt : x > (pts.getLast?.getD (0, 0)).1
  · rw [if_pos hgt]; omega
  · rw [if_neg hgt]
    by_cases hlt : x < (pts.head?.getD (0, 0)).1
    · rw [if_pos hlt]; omega
    · rw [if_neg hlt]
      have hb := search_bounds pts x 0 pts.length (by omega)
      rcases Nat.lt_or_ge (search_best_index pts x 0 pts.length) pts.length with h | h
      · exact h
      · have he : search_best_index pts x 0 pts.length = pts.length := by omega
        have hstop := search_eq_stop pts x 0 pts.length (by omega) he
        rw [getLast?_getD pts] at hgt
        exact absurd hstop (not_lt.mpr (not_lt.mp hgt))

theorem pyGet_zero {α : Type} (l : List α) (h : 0 < l.length) :
    pyGet l 0 = .ok (l.get ⟨0, h⟩) := by
  have := pyGet_nat l 0 h
  simpa using this

theorem callF_const (pts : List Pt) (x c : ℚ) (h0 : pts ≠ [])
    (hc : ∀ p ∈ pts, p.2 = c) : callF pts x = .ok c := by
  rcases Nat.lt_or_ge pts.length 2 with h1 | h2
  · cases pts with
    | nil => exact absurd rfl h0
    | cons p t =>
      cases t with
      | nil =>
        have hp : p.2 = c := hc p (by simp)
        simp [callF, hp]
      | cons q t2 => simp at h1; omega
  · rw [callF_eq_callIndex pts x h0 (by omega)]
    have hidx := callIndex_lt pts x h2
    rcases Nat.eq_zero_or_pos (callIndex pts x) with hz | hpos
    · have ha := hc _ (List.get_mem pts (pts.length - 1) (by omega))
      have hb := hc _ (List.get_mem pts 0 (by omega))
      simp only [hz, Nat.cast_zero, zero_sub, pyGet_neg_one pts h0,
        pyGet_zero pts (by omega), ha, hb, sub_self, zero_div, zero_mul, zero_add]
    · have hc1 : ((callIndex pts x : ℤ) - 1) = ((callIndex pts x - 1 : ℕ) : ℤ) := by omega
      have ha := hc _ (List.get_mem pts (callIndex pts x - 1) (by omega))
      have hb := hc _ (List.get_mem pts (callIndex pts x) hidx)
      simp only [hc1, pyGet_nat pts (callIndex pts x - 1) (by omega),
        pyGet_nat pts (callIndex pts x) hidx, ha, hb, sub_self, zero_div, zero_mul, zero_add]

theorem integStep_const (m : IntegrationMethod) (fpts dpts : List Pt) (c dx : ℚ)
    (hf0 : fpts ≠ []) (hfs : SortedX fpts) (hd0 : dpts ≠ [])
    (hc : ∀ p ∈ dpts, p.2 = c) (hdx : 0 < dx) :
    integrateStep m fpts dpts dx =
      .ok (fpts ++ [((fpts.getD (fpts.length - 1) (0, 0)).1 + dx,
                     (fpts.getD (fpts.length - 1) (0, 0)).2 + c * dx)]) := by
  have hcall : ∀ z, callF dpts z = .ok c := fun z => callF_const dpts z c hd0 hc
  cases m with
  | euler =>
    show integrate_euler fpts dpts dx = _
    unfold integrate_euler
    rw [pyGet_neg_one fpts hf0]
    simp only [hcall]
    rw [mul_comm dx c, appendF_end fpts dx (c * dx) hf0 hfs hdx]
  | trapezoidal =>
    show integrate_trapezoidal fpts dpts dx 1 = _
    unfold integrate_trapezoidal
    rw [pyGet_neg_one dpts hd0]
    simp only [Nat.cast_one, div_one, trapezoidalArea, hcall]
    have harea : 0 + dx / 2 * (c + c) = c * dx := by ring
    rw [harea, appendF_end fpts dx (c * dx) hf0 hfs hdx]
  | rk4 =>
    show integrate_rk4 fpts dpts dx = _
    unfold integrate_rk4
    rw [pyGet_neg_one dpts hd0]
    simp only [hcall]
    have harea : dx / 6 * (c + 2 * (2 * c) + c) = c * dx := by ring
    rw [harea, appendF_end fpts dx (c * dx) hf0 hfs hdx]

theorem sortedX_append_one (f : List Pt) (q : Pt) (hs : SortedX f)
    (hq : ∀ p ∈ f, p.1 ≤ q.1) : SortedX (f ++ [q]) := by
  rw [SortedX, List.pairwise_append]
  refine ⟨hs, List.pairwise_singleton _ _, ?_⟩
  intro a ha b hb
  simp only [List.mem_singleton] at hb
  subst hb
  exact hq a ha

theorem getD_eq_getLast (pts : List Pt) (h : pts ≠ []) :
    pts.getD (pts.length - 1) (0, 0) = pts.getLast h := by
  rw [getD_pt_eq pts _ (by have := List.length_pos.mpr h; omega)]
  exact (List.getLast_eq_get pts h).symm

theorem getD_append_last (f : List Pt) (q : Pt) :
    (f ++ [q]).getD ((f ++ [q]).length - 1) (0, 0) = q := by
  rw [getD_eq_getLast _ (by simp)]
  exact List.getLast_concat f

/-- The chain of samples appended by repeated constant-increment steps:
each new point advances x by dx and y by cdx from the previous one. -/
def extendConst (p : Pt) (dx cdx : ℚ) : ℕ → List Pt
  | 0 => []
  | n + 1 => (p.1 + dx, p.2 + cdx) :: extendConst (p.1 + dx, p.2 + cdx) dx cdx n

theorem extendConst_length (dx cdx : ℚ) :
    ∀ n (p : Pt), (extendConst p dx cdx n).length = n := by
  intro n
  induction n with
  | zero => intro p; rfl
  | succ k ih => intro p; simp [extendConst, ih]

theorem integralSteps_const (m : IntegrationMethod) (dpts : List Pt) (c dx : ℚ)
    (hd0 : dpts ≠ []) (hc : ∀ p ∈ dpts, p.2 = c) (hdx : 0 < dx) :
    ∀ n (f : List Pt), f ≠ [] → SortedX f →
      integralSteps m dpts f (List.replicate n dx) =
        .ok (f ++ extendConst (f.getD (f.length - 1) (0, 0)) dx (c * dx) n) := by
  intro n
  induction n with
  | zero =>
    intro f hf0 hfs
    simp [integralSteps, extendConst]
  | succ k ih =>
    intro f hf0 hfs
    rw [List.replicate_succ]
    show integralSteps m dpts f (dx :: List.replicate k dx) = _
    simp only [integralSteps, integStep_const m f dpts c dx hf0 hfs hd0 hc hdx]
    have hq : ∀ p ∈ f, p.1 ≤ (f.getD (f.length - 1) (0, 0)).1 + dx := by
      intro p hp
      have := sortedX_le_last f hfs p hp
      linarith
    rw [ih (f ++ [((f.getD (f.length - 1) (0, 0)).1 + dx,
          (f.getD (f.length - 1) (0, 0)).2 + c * dx)]) (by simp)
        (sortedX_append_one f _ hfs hq)]
    rw [getD_append_last]
    show _ = Except.ok (f ++ ((f.getD (f.length - 1) (0, 0)).1 + dx,
        (f.getD (f.length - 1) (0, 0)).2 + c * dx) :: extendConst _ dx (c * dx) k)
    simp [extendConst, List.append_assoc]

theorem extendConst_diffs (dx cdx : ℚ) :
    ∀ n (p : Pt) i, i + 1 < (p :: extendConst p dx cdx n).length →
      ((p :: extendConst p dx cdx n).getD (i + 1) (0, 0)).2 -
        ((p :: extendConst p dx cdx n).getD i (0, 0)).2 = cdx := by
  intro n
  induction n with
  | zero =>
    intro p i hi
    simp [extendConst] at hi
  | succ k ih =>
    intro p i hi
    cases i with
    | zero =>
      show ((extendConst p dx cdx (k + 1)).getD 0 (0, 0)).2 - p.2 = cdx
      simp [extendConst]
    | succ j =>
      have hlen : j + 1 < ((p.1 + dx, p.2 + cdx) ::
          extendConst (p.1 + dx, p.2 + cdx) dx cdx k).length := by
        simp only [List.length_cons, extendConst_length] at hi ⊢
        omega
      have := ih (p.1 + dx, p.2 + cdx) j hlen
      simpa [extendConst] using this

theorem xSteps_replicate (pts : List Pt) (dx : ℚ) :
    (∀ i, i + 1 < pts.length → (pts.getD (i + 1) (0, 0)).1 - (pts.getD i (0, 0)).1 = dx) →
    xSteps pts = List.replicate (pts.length - 1) dx := by
  induction pts with
  | nil => intro _; rfl
  | cons a t ih =>
    intro hu
    cases t with
    | nil => rfl
    | cons b t2 =>
      show (b.1 - a.1) :: xSteps (b :: t2) = _
      have h0 := hu 0 (by simp)
      simp only [List.getD_cons_zero, List.getD_cons_succ] at h0
      rw [h0, ih ?_]
      · simp [List.replicate_succ]
      · intro i hi
        have := hu (i + 1) (by simpa using hi)
        simpa [List.getD_cons_succ] using this

/-- C8: integrating a function whose stored points all share y = c at a
uniform x-spacing dx with any of the three schemes yields an integral whose
consecutive samples each increase by exactly c * dx. -/
theorem claim_C8 (m : IntegrationMethod) (pts : List Pt) (c dx xi yi : ℚ)
    (h0 : pts ≠ []) (hdx : 0 < dx) (hc : ∀ p ∈ pts, p.2 = c)
    (hu : ∀ i, i + 1 < pts.length →
      (pts.getD (i + 1) (0, 0)).1 - (pts.getD i (0, 0)).1 = dx) :
    ∃ L, integralBuild m pts xi yi = .ok L ∧
      ∀ i, i + 1 < L.length →
        (L.getD (i + 1) (0, 0)).2 - (L.getD i (0, 0)).2 = c * dx := by
  refine ⟨(xi, yi) :: extendConst (xi, yi) dx (c * dx) (pts.length - 1), ?_, ?_⟩
  · unfold integralBuild
    rw [xSteps_replicate pts dx hu]
    have hstart : insertPoint [] xi yi = [(xi, yi)] := rfl
    rw [hstart, integralSteps_const m pts c dx h0 hc hdx (pts.length - 1) [(xi, yi)]
      (by simp) (by simp [SortedX])]
    rfl
  · exact extendConst_diffs dx (c * dx) (pts.length - 1) (xi, yi)

unseal Rat.mul Rat.add Rat.sub Rat.inv in
/-- Witness for C8: RK4-integrating the constant function 5 sampled at
x = 0, 1, 2 from (0, 0). -/
theorem claim_C8_witness :
    ∃ L, integralBuild .rk4 [((0 : ℚ), (5 : ℚ)), (1, 5), (2, 5)] 0 0 = .ok L ∧
      ∀ i, i + 1 < L.length →
        (L.getD (i + 1) (0, 0)).2 - (L.getD i (0, 0)).2 = 5 * 1 :=
  claim_C8 .rk4 [(0, 5), (1, 5), (2, 5)] 5 1 0 0 (by decide) (by decide) (by decide)
    (fun i => match i with
      | 0 => fun _ => by decide
      | 1 => fun _ => by decide
      | n + 2 => fun h => absurd h (by simp))

theorem callF_isOk (pts : List Pt) (x : ℚ) (h0 : pts ≠ []) :
    ∃ v, callF pts x = .ok v := by
  rcases Nat.lt_or_ge pts.length 2 with h1 | h2
  · cases pts with
    | nil => exact absurd rfl h0
    | cons p t =>
      cases t with
      | nil => exact ⟨p.2, by simp [callF]⟩
      | cons q t2 => simp at h1; omega
  · rw [callF_eq_callIndex pts x h0 (by omega)]
    have hidx := callIndex_lt pts x h2
    rcases Nat.eq_zero_or_pos (callIndex pts x) with hz | hpos
    · simp only [hz, Nat.cast_zero, zero_sub, pyGet_neg_one pts h0, pyGet_zero pts (by omega)]
      exact ⟨_, rfl⟩
    · have hc1 : ((callIndex pts x : ℤ) - 1) = ((callIndex pts x - 1 : ℕ) : ℤ) := by omega
      simp only [hc1, pyGet_nat pts (callIndex pts x - 1) (by omega),
        pyGet_nat pts (callIndex pts x) hidx]
      exact ⟨_, rfl⟩

theorem integrateStep_appends (m : IntegrationMethod) (fpts dpts : List Pt) (dx : ℚ)
    (hf0 : fpts ≠ []) (hfs : SortedX fpts) (hd0 : dpts ≠ []) (hdx : 0 < dx) :
    ∃ q, integrateStep m fpts dpts dx = .ok (fpts ++ [q]) := by
  cases m with
  | euler =>
    obtain ⟨v, hv⟩ := callF_isOk dpts
      ((fpts.get ⟨fpts.length - 1, by have := List.length_pos.mpr hf0; omega⟩).1) hd0
    have hres : integrate_euler fpts dpts dx =
        .ok (fpts ++ [((fpts.getD (fpts.length - 1) (0, 0)).1 + dx,
                       (fpts.getD (fpts.length - 1) (0, 0)).2 + dx * v)]) := by
      unfold integrate_euler
      rw [pyGet_neg_one fpts hf0]
      simp only [hv]
      rw [appendF_end fpts dx (dx * v) hf0 hfs hdx]
    exact ⟨_, hres⟩
  | trapezoidal =>
    obtain ⟨v1, hv1⟩ := callF_isOk dpts
      ((dpts.get ⟨dpts.length - 1, by have := List.length_pos.mpr hd0; omega⟩).1 - dx / 1) hd0
    obtain ⟨v2, hv2⟩ := callF_isOk dpts
      ((dpts.get ⟨dpts.length - 1, by have := List.length_pos.mpr hd0; omega⟩).1) hd0
    have hres : integrate_trapezoidal fpts dpts dx 1 =
        .ok (fpts ++ [((fpts.getD (fpts.length - 1) (0, 0)).1 + dx,
                       (fpts.getD (fpts.length - 1) (0, 0)).2 + (0 + dx / 1 / 2 * (v1 + v2)))]) := by
      unfold integrate_trapezoidal
      rw [pyGet_neg_one dpts hd0]
      simp only [Nat.cast_one, trapezoidalArea, hv1, hv2]
      rw [appendF_end fpts dx _ hf0 hfs hdx]
    exact ⟨_, hres⟩
  | rk4 =>
    obtain ⟨v1, hv1⟩ := callF_isOk dpts
      ((dpts.get ⟨dpts.length - 1, by have := List.length_pos.mpr hd0; omega⟩).1) hd0
    obtain ⟨v2, hv2⟩ := callF_isOk dpts
      ((dpts.get ⟨dpts.length - 1, by have := List.length_pos.mpr hd0; omega⟩).1 + dx / 2) hd0
    obtain ⟨v3, hv3⟩ := callF_isOk dpts
      ((dpts.get ⟨dpts.length - 1, by have := List.length_pos.mpr hd0; omega⟩).1 + dx) hd0
    have hres : integrate_rk4 fpts dpts dx =
        .ok (fpts ++ [((fpts.getD (fpts.length - 1) (0, 0)).1 + dx,
                       (fpts.getD (fpts.length - 1) (0, 0)).2 + dx / 6 * (v1 + 2 * (2 * v2) + v3))]) := by
      unfold integrate_rk4
      rw [pyGet_neg_one dpts hd0]
      simp only [hv1, hv2, hv3]
      rw [appendF_end fpts dx _ hf0 hfs hdx]
    exact ⟨_, hres⟩

theorem insert_unfold (f : Function) (m : IntegrationMethod) (ipts : List Pt) (x y : ℚ)
    (hc : f.cache = some (m, ipts)) :
    f.insert x y false =
      (if search_best_index f.points x 0 f.points.length =
          (f.points.insertIdx (search_best_index f.points x 0 f.points.length) (x, y)).length - 1
       then
        match updateIntegral m ipts
            (f.points.insertIdx (search_best_index f.points x 0 f.points.length) (x, y)) with
        | .error e => .error e
        | .ok ipts2 =>
          .ok ⟨f.points.insertIdx (search_best_index f.points x 0 f.points.length) (x, y),
               some (m, ipts2)⟩
       else
        match pyGet ipts 0 with
        | .error e => .error e
        | .ok p0 =>
          match integralBuild m
              (f.points.insertIdx (search_best_index f.points x 0 f.points.length) (x, y))
              p0.1 p0.2 with
          | .error e => .error e
          | .ok newI =>
            .ok ⟨f.points.insertIdx (search_best_index f.points x 0 f.points.length) (x, y),
                 some (m, newI)⟩) := by
  unfold Function.insert
  rw [if_neg (by simp), hc]

/-- C4: with a cached integral present, an insert that does not land at the
logical end fully rebuilds the integral with the cached scheme from the
first point of the previous integral, and the rebuilt function equals the
result of calling integral() with that scheme and initial condition on the
function holding the new point set; an insert at the logical end instead
appends exactly one new trailing integral sample. -/
theorem claim_C4 (f : Function) (m : IntegrationMethod) (ipts : List Pt) (x y : ℚ)
    (hc : f.cache = some (m, ipts)) (hi0 : ipts ≠ []) (his : SortedX ipts)
    (hf0 : f.points ≠ []) (hfs : SortedX f.points) :
    (search_best_index f.points x 0 f.points.length ≠
        (f.points.insertIdx (search_best_index f.points x 0 f.points.length) (x, y)).length - 1 →
      f.insert x y false =
        Function.integral
          ⟨f.points.insertIdx (search_best_index f.points x 0 f.points.length) (x, y), f.cache⟩
          m (ipts.getD 0 (0, 0)).1 (ipts.getD 0 (0, 0)).2) ∧
    ((∀ p ∈ f.points, p.1 < x) →
      ∃ q, f.insert x y false = .ok ⟨f.points ++ [(x, y)], some (m, ipts ++ [q])⟩) := by
  constructor
  · intro hne
    rw [insert_unfold f m ipts x y hc, if_neg hne]
    unfold Function.integral
    simp only [pyGet_zero ipts (List.length_pos.mpr hi0),
      ← getD_pt_eq ipts 0 (List.length_pos.mpr hi0)]
  · intro hgt
    have hidx : search_best_index f.points x 0 f.points.length = f.points.length :=
      search_gt_all f.points x hfs hgt
    have hlen : 0 < f.points.length := List.length_pos.mpr hf0
    rw [insert_unfold f m ipts x y hc]
    simp only [hidx, List.insertIdx_length_self]
    rw [if_pos (by simp)]
    have hdxpos : 0 < x - (f.points.getD (f.points.length - 1) (0, 0)).1 := by
      have := hgt _ (getD_mem f.points (f.points.length - 1) (by omega))
      linarith
    have hdxval : (if 1 < (f.points ++ [(x, y)]).length then
        ((f.points ++ [(x, y)]).getD ((f.points ++ [(x, y)]).length - 1) (0, 0)).1 -
        ((f.points ++ [(x, y)]).getD ((f.points ++ [(x, y)]).length - 2) (0, 0)).1 else 0)
        = x - (f.points.getD (f.points.length - 1) (0, 0)).1 := by
      rw [if_pos (by simp; omega)]
      rw [getD_append_last f.points (x, y)]
      have h2 : (f.points ++ [(x, y)]).length - 2 = f.points.length - 1 := by simp
      rw [h2, List.getD_append f.points [(x, y)] (0, 0) (f.points.length - 1) (by omega)]
    obtain ⟨q, hq⟩ := integrateStep_appends m ipts (f.points ++ [(x, y)])
      (x - (f.points.getD (f.points.length - 1) (0, 0)).1) hi0 his (by simp) hdxpos
    unfold updateIntegral
    rw [hdxval, hq]
    exact ⟨q, rfl⟩

unseal Rat.mul Rat.add Rat.sub Rat.inv in
/-- Witness for C4 on the function [(0,0), (2,1)] with cached Euler integral
[(0,0), (2,0)]: inserting (3,4) at the logical end appends one trailing
integral sample, inserting (1,4) in the middle rebuilds via integral(). -/
theorem claim_C4_witness :
    (∃ q, Function.insert
        ⟨[((0 : ℚ), (0 : ℚ)), (2, 1)], some (.euler, [(0, 0), (2, 0)])⟩ 3 4 false =
        .ok ⟨[((0 : ℚ), (0 : ℚ)), (2, 1)] ++ [(3, 4)],
             some (.euler, [((0 : ℚ), (0 : ℚ)), (2, 0)] ++ [q])⟩) ∧
    Function.insert
        ⟨[((0 : ℚ), (0 : ℚ)), (2, 1)], some (.euler, [(0, 0), (2, 0)])⟩ 1 4 false =
      Function.integral
        ⟨[((0 : ℚ), (0 : ℚ)), (2, 1)].insertIdx
            (search_best_index [((0 : ℚ), (0 : ℚ)), (2, 1)] 1 0 2) (1, 4),
         some (.euler, [(0, 0), (2, 0)])⟩ .euler 0 0 := by
  have hA := claim_C4 ⟨[((0 : ℚ), (0 : ℚ)), (2, 1)], some (.euler, [(0, 0), (2, 0)])⟩ .euler
    [((0 : ℚ), (0 : ℚ)), (2, 0)] 3 4 rfl (by decide) (by decide) (by decide) (by decide)
  have hB := claim_C4 ⟨[((0 : ℚ), (0 : ℚ)), (2, 1)], some (.euler, [(0, 0), (2, 0)])⟩ .euler
    [((0 : ℚ), (0 : ℚ)), (2, 0)] 1 4 rfl (by decide) (by decide) (by decide) (by decide)
  exact ⟨hA.2 (by decide), hB.1 (by decide)⟩

/-- Python's math module as used by the physics layer, abstracted to
rational-valued parameters: the control flow and error behaviour of the
embedded code never depend on the values these produce. -/
structure MathOps where
  pi : ℚ
  sin : ℚ → ℚ
  cos : ℚ → ℚ
  atan2 : ℚ → ℚ → ℚ
  sqrt : ℚ → ℚ

/-- A concrete instantiation of the math parameters, used only to apply
theorems at concrete inputs. -/
def dummyMath : MathOps :=
  ⟨0, fun _ => 0, fun _ => 0, fun _ _ => 0, fun _ => 0⟩

/-- The constructor parameters of Gravity (src/physics/gravity.py): the
external source mass and radius; the body back-reference is supplied at
call time. -/
structure GravityF where
  source_mass : ℚ
  source_radius : ℚ
deriving DecidableEq, Repr

/-- The `forces` dictionary of a Body, keyed by force class.  Only the two
concrete force classes of the repository exist; `add_force` overwrites the
slot of its class (last write wins, as for a Python dict). -/
structure BodyForces where
  gravity : Option GravityF
  tension : Bool
deriving DecidableEq, Repr

/-- VectorFunction (src/graph/vector_function.py): paired x- and
y-component Functions over the shared time axis. -/
structure VectorFunction where
  x : Function
  y : Function
deriving DecidableEq, Repr

/-- The merged Body / AnimatedBody / Pendulum state (src/physics/body.py,
animated_body.py, pendulum.py): mass, step size, current time, pivot
coordinates, rope length, the force dictionary and the three trajectory
VectorFunctions.  The pre/post-step callback lists are passed to `step`
explicitly, since callbacks are arbitrary mutating procedures. -/
structure Pendulum where
  mass : ℚ
  dt : ℚ
  time : ℚ
  pivotX : ℚ
  pivotY : ℚ
  length : ℚ
  forces : BodyForces
  position : VectorFunction
  velocity : VectorFunction
  acceleration : VectorFunction
deriving DecidableEq, Repr

/-- Dataclass construction plus `__post_init__`: empty force dictionary and
three empty trajectory functions, time starting at 0. -/
def mkPendulum (mass dt pivotX pivotY length : ℚ) : Pendulum :=
  ⟨mass, dt, 0, pivotX, pivotY, length, ⟨none, false⟩,
   ⟨⟨[], none⟩, ⟨[], none⟩⟩, ⟨⟨[], none⟩, ⟨[], none⟩⟩, ⟨⟨[], none⟩, ⟨[], none⟩⟩⟩

/-- Embeds `VectorFunction.seek`: seek the x component first, then the y
component, as the source's tuple expression evaluates left to right. -/
def VectorFunction.seek (v : VectorFunction) (i : ℤ) : Except Err (Pt × Pt) :=
  match seekF v.x.points i with
  | .error e => .error e
  | .ok a =>
    match seekF v.y.points i with
    | .error e => .error e
    | .ok b => .ok (a, b)

/-- The value `Gravity.gravitational_constant = 6.674e-11`. -/
def gravitational_constant : ℚ := 6674 / 10 ^ 14

/-- Embeds `Gravity.get_magnitude`: reads the latest y position sample as the
height (raising IndexError on an empty position function), then applies
Newton's law of universal gravitation. -/
def Gravity.get_magnitude (g : GravityF) (b : Pendulum) : Except Err ℚ :=
  match b.position.seek (-1) with
  | .error e => .error e
  | .ok p =>
    .ok (b.mass * (gravitational_constant * g.source_mass / (g.source_radius + p.2.2) ^ 2))

/-- Embeds `Gravity.get_direction`: always straight down, `-pi/2`. -/
def Gravity.get_direction (M : MathOps) : ℚ :=
  -M.pi / 2

/-- Embeds `Pendulum.distance_from_pivot`: Euclidean distance from the latest
position sample to the pivot. -/
def Pendulum.distance_from_pivot (M : MathOps) (b : Pendulum) : Except Err ℚ :=
  match b.position.seek (-1) with
  | .error e => .error e
  | .ok p => .ok (M.sqrt ((p.1.2 - b.pivotX) ^ 2 + (p.2.2 - b.pivotY) ^ 2))

/-- Embeds `PendulumTension.get_direction`: the angle from the latest position
sample towards the pivot. -/
def PendulumTension.get_direction (M : MathOps) (b : Pendulum) : Except Err ℚ :=
  match b.position.seek (-1) with
  | .error e => .error e
  | .ok p => .ok (M.atan2 (b.pivotY - p.2.2) (b.pivotX - p.1.2))

/-- Embeds `PendulumTension.__init__` together with the dictionary store performed
by `Body.add_force`: the constructor only records the body back-reference
and performs no dependency check, so attaching never fails. -/
def PendulumTension.init (b : Pendulum) : Except Err Pendulum :=
  .ok {b with forces := {b.forces with tension := true}}

/-- Embeds `Body.add_force(Gravity, ...)`. -/
def Pendulum.add_force_gravity (b : Pendulum) (source_mass source_radius : ℚ) : Pendulum :=
  {b with forces := {b.forces with gravity := some ⟨source_mass, source_radius⟩}}

/-- Embeds `PendulumTension.get_magnitude`: looks up Gravity in the body's force
dictionary (KeyError, i.e. MissingDependency, when absent), computes its
magnitude, then the tension direction, then the centripetal term from the
latest velocity sample and the distance from the pivot — in the source's
evaluation order. -/
def PendulumTension.get_magnitude (M : MathOps) (b : Pendulum) : Except Err ℚ :=
  match b.forces.gravity with
  | none => .error .missingDependency
  | some g =>
    match Gravity.get_magnitude g b with
    | .error e => .error e
    | .ok gmag =>
      match PendulumTension.get_direction M b with
      | .error e => .error e
      | .ok dir =>
        match b.velocity.seek (-1) with
        | .error e => .error e
        | .ok vel =>
          match Pendulum.distance_from_pivot M b with
          | .error e => .error e
          | .ok dist =>
            .ok (gmag * M.sin dir + b.mass * ((vel.1.2 ^ 2 + vel.2.2 ^ 2) / dist))

/-- The Gravity summand of `Body.get_net_force` (absent force contributes
nothing; magnitude is computed before direction, as in the source loop). -/
def gravityTerm (M : MathOps) (b : Pendulum) : Except Err (ℚ × ℚ) :=
  match b.forces.gravity with
  | none => .ok (0, 0)
  | some g =>
    match Gravity.get_magnitude g b with
    | .error e => .error e
    | .ok mag =>
      .ok (M.cos (Gravity.get_direction M) * mag, M.sin (Gravity.get_direction M) * mag)

/-- The PendulumTension summand of `Body.get_net_force`. -/
def tensionTerm (M : MathOps) (b : Pendulum) : Except Err (ℚ × ℚ) :=
  if b.forces.tension then
    match PendulumTension.get_magnitude M b with
    | .error e => .error e
    | .ok mag =>
      match PendulumTension.get_direction M b with
      | .error e => .error e
      | .ok dir => .ok (M.cos dir * mag, M.sin dir * mag)
  else .ok (0, 0)

/-- Embeds `Body.get_net_force`: sum the force contributions in the dictionary's
insertion order (the driver adds Gravity before PendulumTension). -/
def Pendulum.get_net_force (M : MathOps) (b : Pendulum) : Except Err (ℚ × ℚ) :=
  match gravityTerm M b with
  | .error e => .error e
  | .ok s1 =>
    match tensionTerm M b with
    | .error e => .error e
    | .ok s2 => .ok (s1.1 + s2.1, s1.2 + s2.2)

/-- Embeds `AnimatedBody.generate_acceleration`: net force over mass. -/
def Pendulum.generate_acceleration (M : MathOps) (b : Pendulum) : Except Err (ℚ × ℚ) :=
  match b.get_net_force M with
  | .error e => .error e
  | .ok fo => .ok (fo.1 / b.mass, fo.2 / b.mass)

/-- Embeds `VectorFunction.insert` with Python's in-place mutation semantics: the
x component is inserted first; if the y insert then fails, the x mutation
persists.  Returns the error, if any, together with the resulting state. -/
def VectorFunction.insertRun (v : VectorFunction) (t xv yv : ℚ) : Option Err × VectorFunction :=
  match v.x.insert t xv false with
  | .error e => (some e, v)
  | .ok fx =>
    match v.y.insert t yv false with
    | .error e => (some e, ⟨fx, v.y⟩)
    | .ok fy => (none, ⟨fx, fy⟩)

/-- A pre- or post-step correction callback: an arbitrary procedure that
may mutate the body and may fail, leaving its mutations in place. -/
abbrev Callback := Pendulum → Option Err × Pendulum

/-- Run callbacks in list order, stopping at the first failure with the
state the failing callback left behind. -/
def runCallbacks : List Callback → Pendulum → Option Err × Pendulum
  | [], b => (none, b)
  | c :: rest, b =>
    match c b with
    | (some e, b2) => (some e, b2)
    | (none, b2) => runCallbacks rest b2

/-- Embeds `AnimatedBody.__step_acceleration`: the acceleration arguments are
computed before the insert, so a failure there mutates nothing. -/
def AnimatedBody.step_acceleration (M : MathOps) (b : Pendulum) : Option Err × Pendulum :=
  match b.generate_acceleration M with
  | .error e => (some e, b)
  | .ok acc =>
    match b.acceleration.insertRun b.time acc.1 acc.2 with
    | (e, accF) => (e, {b with acceleration := accF})

/-- Embeds `AnimatedBody.step` with Python exception semantics: pre-step
callbacks, then `time += dt`, then the acceleration update, then post-step
callbacks; a failure anywhere stops the sequence but keeps every mutation
already performed. -/
def AnimatedBody.step (M : MathOps) (pre post : List Callback) (b : Pendulum) :
    Option Err × Pendulum :=
  match runCallbacks pre b with
  | (some e, b1) => (some e, b1)
  | (none, b1) =>
    match AnimatedBody.step_acceleration M {b1 with time := b1.time + b1.dt} with
    | (some e, b3) => (some e, b3)
    | (none, b3) => runCallbacks post b3

/-- BodyReplay (src/physics/body_replay.py): the three loaded
VectorFunctions plus the playback cursor.  The index starts at 0 and is
only ever incremented, so it is modelled as a natural number. -/
structure BodyReplay where
  position : VectorFunction
  velocity : VectorFunction
  acceleration : VectorFunction
  index : ℕ
  time : ℚ
deriving DecidableEq, Repr

/-- Embeds `BodyReplay.step`: increment the cursor unconditionally, then try to
read sample `index` of the position's x component; any exception is caught
and reported as False, leaving time unchanged. -/
def BodyReplay.step (r : BodyReplay) : Bool × BodyReplay :=
  match seekF r.position.x.points ((r.index + 1 : ℕ) : ℤ) with
  | .error _ => (false, {r with index := r.index + 1})
  | .ok p => (true, {r with index := r.index + 1, time := p.1})

/-- Iterated `BodyReplay.step`, discarding the Boolean results. -/
def BodyReplay.stepN : ℕ → BodyReplay → BodyReplay
  | 0, r => r
  | n + 1, r => BodyReplay.stepN n (BodyReplay.step r).2

/-- C6 amended: attaching PendulumTension to a body without a Gravity force
succeeds — the constructor performs no dependency check — and the
MissingDependency failure instead occurs when the magnitude is first
computed and Gravity is looked up in the force dictionary. -/
theorem claim_C6 (M : MathOps) (b : Pendulum) (hg : b.forces.gravity = none) :
    PendulumTension.init b = .ok {b with forces := {b.forces with tension := true}} ∧
    PendulumTension.get_magnitude M {b with forces := {b.forces with tension := true}} =
      .error .missingDependency := by
  refine ⟨rfl, ?_⟩
  unfold PendulumTension.get_magnitude
  simp [hg]

/-- Counterexample to C6 as stated: attaching PendulumTension to a body
whose force set lacks Gravity does not fail at attachment time; the
MissingDependency error only appears at the first magnitude computation. -/
theorem claim_C6_counterexample :
    PendulumTension.init (mkPendulum 1 1 0 0 1) ≠ .error .missingDependency ∧
    PendulumTension.get_magnitude dummyMath
        {mkPendulum 1 1 0 0 1 with forces := ⟨none, true⟩} = .error .missingDependency :=
  ⟨by decide, rfl⟩

/-- Witness for the amended C6 at a concrete Gravity-free pendulum. -/
theorem claim_C6_witness :
    (mkPendulum 2 1 0 0 1).forces.gravity = none ∧
    PendulumTension.init (mkPendulum 2 1 0 0 1) =
      .ok {mkPendulum 2 1 0 0 1 with
            forces := {(mkPendulum 2 1 0 0 1).forces with tension := true}} ∧
    PendulumTension.get_magnitude dummyMath
        {mkPendulum 2 1 0 0 1 with
          forces := {(mkPendulum 2 1 0 0 1).forces with tension := true}} =
      .error .missingDependency := by
  have h := claim_C6 dummyMath (mkPendulum 2 1 0 0 1) rfl
  exact ⟨rfl, h.1, h.2⟩

/-- C7 amended: with set_state never called, the trajectory functions are
empty, and the first step() on a body with a Gravity force attached fails
with IndexOutOfRange — raised when Gravity's magnitude reads the last
sample of the empty position function — not EmptyFunction; the trajectory
functions are left empty and only the time field is advanced. -/
theorem claim_C7 (M : MathOps) (b : Pendulum) (g : GravityF)
    (hg : b.forces.gravity = some g) (hpx : b.position.x.points = []) :
    AnimatedBody.step M [] [] b =
      (some .indexOutOfRange, {b with time := b.time + b.dt}) := by
  unfold AnimatedBody.step runCallbacks AnimatedBody.step_acceleration
    Pendulum.generate_acceleration Pendulum.get_net_force gravityTerm
    Gravity.get_magnitude VectorFunction.seek seekF
  simp [hg, hpx, pyGet]

/-- Counterexample to C7 as stated: the first step of an unseeded body with
Gravity attached fails with IndexOutOfRange, not EmptyFunction. -/
theorem claim_C7_counterexample :
    (AnimatedBody.step dummyMath [] []
        (Pendulum.add_force_gravity (mkPendulum 2 1 0 0 1) 5 2)).1 =
      some .indexOutOfRange ∧
    (AnimatedBody.step dummyMath [] []
        (Pendulum.add_force_gravity (mkPendulum 2 1 0 0 1) 5 2)).1 ≠
      some .emptyFunction :=
  ⟨by decide, by decide⟩

/-- Witness for the amended C7 at a concrete unseeded body with Gravity. -/
theorem claim_C7_witness :
    AnimatedBody.step dummyMath [] [] (Pendulum.add_force_gravity (mkPendulum 1 1 0 0 1) 5 2) =
      (some .indexOutOfRange,
        {Pendulum.add_force_gravity (mkPendulum 1 1 0 0 1) 5 2 with time := 0 + 1}) :=
  claim_C7 dummyMath (Pendulum.add_force_gravity (mkPendulum 1 1 0 0 1) 5 2) ⟨5, 2⟩ rfl rfl

/-- C5 amended: when the acceleration computation of a step fails (with no
callbacks attached), the body is not left exactly at the last successful
step boundary: the time field has already been advanced by dt, while the
three trajectory functions and all other state are unchanged. -/
theorem claim_C5 (M : MathOps) (b : Pendulum) (e : Err)
    (hfail : Pendulum.generate_acceleration M {b with time := b.time + b.dt} = .error e) :
    AnimatedBody.step M [] [] b = (some e, {b with time := b.time + b.dt}) := by
  unfold AnimatedBody.step runCallbacks AnimatedBody.step_acceleration
  simp [hfail]

unseal Rat.add in
/-- Counterexample to C5 as stated: a failing step leaves the body in a
state different from the last successful step boundary (time advanced). -/
theorem claim_C5_counterexample :
    (AnimatedBody.step dummyMath [] []
        (Pendulum.add_force_gravity (mkPendulum 1 2 0 0 1) 5 2)).1.isSome = true ∧
    (AnimatedBody.step dummyMath [] []
        (Pendulum.add_force_gravity (mkPendulum 1 2 0 0 1) 5 2)).2 ≠
      Pendulum.add_force_gravity (mkPendulum 1 2 0 0 1) 5 2 :=
  ⟨by decide, by decide⟩

/-- Witness for the amended C5 at a concrete body whose acceleration
computation fails on the first step. -/
theorem claim_C5_witness :
    Pendulum.generate_acceleration dummyMath
        {Pendulum.add_force_gravity (mkPendulum 3 1 0 0 1) 5 2 with time := 0 + 1} =
      .error .indexOutOfRange ∧
    AnimatedBody.step dummyMath [] [] (Pendulum.add_force_gravity (mkPendulum 3 1 0 0 1) 5 2) =
      (some .indexOutOfRange,
        {Pendulum.add_force_gravity (mkPendulum 3 1 0 0 1) 5 2 with time := 0 + 1}) := by
  refine ⟨by decide, ?_⟩
  exact claim_C5 dummyMath (Pendulum.add_force_gravity (mkPendulum 3 1 0 0 1) 5 2)
    .indexOutOfRange (by decide)

theorem step_keeps_exhausted (r : BodyReplay)
    (h : r.position.x.points.length ≤ r.index) :
    (BodyReplay.step r).1 = false ∧
    (BodyReplay.step r).2.position = r.position ∧
    (BodyReplay.step r).2.index = r.index + 1 := by
  unfold BodyReplay.step seekF
  rw [pyGet_too_big _ _ (by omega)]
  exact ⟨rfl, rfl, rfl⟩

theorem stepN_false (n : ℕ) : ∀ r : BodyReplay,
    r.position.x.points.length ≤ r.index →
    (BodyReplay.step (BodyReplay.stepN n r)).1 = false := by
  induction n with
  | zero =>
    intro r h
    exact (step_keeps_exhausted r h).1
  | succ k ih =>
    intro r h
    show (BodyReplay.step (BodyReplay.stepN k (BodyReplay.step r).2)).1 = false
    apply ih
    have h2 := step_keeps_exhausted r h
    rw [h2.2.1, h2.2.2]
    omega

/-- C10: BodyReplay.step always increments the playback index; it returns
True exactly when the incremented index addresses a stored sample of the
position's x component, updating time to that sample's time value and
leaving time unchanged otherwise; and once it has returned False every
further step also returns False. -/
theorem claim_C10 (r : BodyReplay) :
    (BodyReplay.step r).2.index = r.index + 1 ∧
    ((BodyReplay.step r).1 = true ↔ r.index + 1 < r.position.x.points.length) ∧
    ((BodyReplay.step r).1 = true →
      (BodyReplay.step r).2.time = (r.position.x.points.getD (r.index + 1) (0, 0)).1) ∧
    ((BodyReplay.step r).1 = false → (BodyReplay.step r).2.time = r.time) ∧
    ((BodyReplay.step r).1 = false →
      ∀ n, (BodyReplay.step (BodyReplay.stepN n (BodyReplay.step r).2)).1 = false) := by
  by_cases h : r.index + 1 < r.position.x.points.length
  · have hs : BodyReplay.step r = (true,
        {r with
          index := r.index + 1,
          time := (r.position.x.points.get ⟨r.index + 1, h⟩).1}) := by
      unfold BodyReplay.step seekF
      rw [pyGet_nat _ _ h]
    rw [hs]
    refine ⟨rfl, by simp [h], ?_, ?_, ?_⟩
    · intro _
      rw [getD_pt_eq _ _ h]
    · intro hfalse
      simp at hfalse
    · intro hfalse
      simp at hfalse
  · have hs : BodyReplay.step r = (false, {r with index := r.index + 1}) := by
      unfold BodyReplay.step seekF
      rw [pyGet_too_big _ _ (by omega)]
    rw [hs]
    refine ⟨rfl, by simp [h], ?_, ?_, ?_⟩
    · intro htrue
      simp at htrue
    · intro _
      rfl
    · intro _ n
      apply stepN_false
      simp
      omega

/-- Witness for C10 at a one-sample replay whose cursor is already at the
last sample: the first step returns False and so does every later one. -/
theorem claim_C10_witness :
    (BodyReplay.step
        ⟨⟨⟨[((0 : ℚ), (5 : ℚ))], none⟩, ⟨[(0, 5)], none⟩⟩,
         ⟨⟨[], none⟩, ⟨[], none⟩⟩, ⟨⟨[], none⟩, ⟨[], none⟩⟩, 0, 0⟩).1 = false ∧
    (BodyReplay.step (BodyReplay.stepN 2 (BodyReplay.step
        ⟨⟨⟨[((0 : ℚ), (5 : ℚ))], none⟩, ⟨[(0, 5)], none⟩⟩,
         ⟨⟨[], none⟩, ⟨[], none⟩⟩, ⟨⟨[], none⟩, ⟨[], none⟩⟩, 0, 0⟩).2)).1 = false := by
  have h := claim_C10
    ⟨⟨⟨[((0 : ℚ), (5 : ℚ))], none⟩, ⟨[(0, 5)], none⟩⟩,
     ⟨⟨[], none⟩, ⟨[], none⟩⟩, ⟨⟨[], none⟩, ⟨[], none⟩⟩, 0, 0⟩
  exact ⟨by decide, h.2.2.2.2 (by decide) 2⟩

end PendSim
